import Mathlib

/-!
# Verification of the pad.ws collaboration backend core

Shallow embedding of the scene reconciler (`src/backend/workers/canvas_worker.py`)
and the WebSocket connection hub (`src/backend/routers/ws_router.py`), with
theorems settling the specification claims about them.

Conventions of the embedding:
* Python dicts with string keys become association lists `List (String × α)`;
  `dict.get(k)` is `dictGet`, `dict[k] = v` is `dictInsert` (which keeps the
  position of an existing key and appends a new one, like CPython), and
  Python's `==` on dicts is the extensional `pyDictEq`.
* An Excalidraw element dict is modelled by the structure `Element`: the keys
  the worker reads (`id`, `version`, `versionNonce`, `index`) become fields
  (`Option` where the code uses `.get` with a default), and the rest of the
  dict is the opaque `payload`.  Structure equality models dict equality.
* `async` functions that only read/write one pad's cached data become pure
  state transformers on `PadData`.
-/

/-- One Excalidraw element as the worker sees it: the fields read by
`canvas_worker.py` plus an opaque `payload` standing for all other keys of the
element dict. -/
structure Element where
  id : String
  version : Option Int
  versionNonce : Option Int
  index : Option String
  payload : String
deriving DecidableEq, Repr

/-- `m.get(k)`: first binding of key `k` in an association list (Python dicts
have unique keys, so "first" is exact). -/
def dictGet {α : Type} : List (String × α) → String → Option α
  | [], _ => none
  | (k', v) :: rest, k => if k' = k then some v else dictGet rest k

/-- `m[k] = v` on a Python dict: replace the value in place if the key exists,
otherwise append the new binding at the end (CPython insertion order). -/
def dictInsert {α : Type} (k : String) (v : α) : List (String × α) → List (String × α)
  | [] => [(k, v)]
  | (k', v') :: rest => if k' = k then (k', v) :: rest else (k', v') :: dictInsert k v rest

/-- Python `==` on dicts: same keys and same value at every key, regardless of
insertion order. -/
def pyDictEq {α : Type} [DecidableEq α] (a b : List (String × α)) : Bool :=
  (a.map Prod.fst ++ b.map Prod.fst).all (fun k => decide (dictGet a k = dictGet b k))

/-- `{elem["id"]: elem for elem in server_elements}` in `_reconcile_elements`:
later duplicates overwrite the value but keep the first key position. -/
def buildMap (elems : List Element) : List (String × Element) :=
  elems.foldl (fun m e => dictInsert e.id e m) []

/-- `get_sort_key` inside `_order_by_fractional_index`: a falsy (`None` or
empty) index is replaced by `""`, then the pair `(index, id)` is compared. -/
def sortKey (e : Element) : String × String :=
  (e.index.getD "", e.id)

/-- Python `<` on strings: lexicographic comparison of the code-point
sequences (the `List Char` order). -/
def strLt (a b : String) : Prop :=
  a.data < b.data

/-- Python `<=` on strings. -/
def strLe (a b : String) : Prop :=
  a.data ≤ b.data

instance : DecidableRel strLt := fun a b => by
  unfold strLt; infer_instance

instance : DecidableRel strLe := fun a b => by
  unfold strLe; infer_instance

/-- Lexicographic tuple comparison used by Python's `sorted` on the
`(index, id)` keys. -/
def keyLe (a b : Element) : Prop :=
  strLt (sortKey a).1 (sortKey b).1 ∨
    ((sortKey a).1 = (sortKey b).1 ∧ strLe (sortKey a).2 (sortKey b).2)

instance : DecidableRel keyLe := fun a b => by
  unfold keyLe; infer_instance

/-- `_order_by_fractional_index`: Python's `sorted(elements, key=get_sort_key)`
is a stable ascending sort by the key; `List.insertionSort` with the key order
is the same function. -/
def _order_by_fractional_index (elements : List Element) : List Element :=
  List.insertionSort keyLe elements

/-- `CanvasWorker._should_discard_client_element`. -/
def _should_discard_client_element (server_element : Option Element)
    (client_element : Element) : Bool :=
  match server_element with
  | none =>
    -- No server version, accept client version
    false
  | some s =>
    let server_version := s.version.getD 0
    let client_version := client_element.version.getD 0
    -- Compare versions - higher version wins
    if client_version < server_version then true
    else if client_version > server_version then false
    else
      -- If versions are equal, use versionNonce as tie-breaker; lower nonce wins
      let server_nonce := s.versionNonce.getD 0
      let client_nonce := client_element.versionNonce.getD 0
      decide (client_nonce > server_nonce)

/-- The element kept for one client proposal: the server element if the
proposal is discarded, the proposal otherwise (helper for stating theorems;
not itself part of the source). -/
def winAgainst (s? : Option Element) (c : Element) : Element :=
  if _should_discard_client_element s? c then s?.getD c else c

/-- The `for client_elem in client_elements` loop of `_reconcile_elements`,
threading the `reconciled_elements` list, the `processed_ids` set (a list used
only through membership) and the `has_changes` flag. -/
def reconcileClientLoop (smap : List (String × Element)) :
    List String → List Element → List Element × List String × Bool
  | seen, [] => ([], seen, false)
  | seen, c :: cs =>
    if c.id = "" ∨ c.id ∈ seen then
      -- `if not elem_id or elem_id in processed_ids: continue`
      reconcileClientLoop smap seen cs
    else
      let server_elem := dictGet smap c.id
      let rest := reconcileClientLoop smap (c.id :: seen) cs
      if _should_discard_client_element server_elem c then
        -- `reconciled_elements.append(server_elem)`; the discard rule only
        -- fires when `server_elem` exists, so `.toList` appends exactly it
        (server_elem.toList ++ rest.1, rest.2.1, rest.2.2)
      else
        -- accept the client element; `has_changes` is set when there was no
        -- server element or the accepted element differs from it
        (c :: rest.1, rest.2.1, rest.2.2 || decide (server_elem ≠ some c))

/-- `CanvasWorker._reconcile_elements`. -/
def _reconcile_elements (server_elements client_elements : List Element) :
    List Element × Bool :=
  let server_elements_map := buildMap server_elements
  let r := reconcileClientLoop server_elements_map [] client_elements
  -- add remaining server elements, in map (= first-occurrence) order
  let reconciled := r.1 ++ (server_elements_map.filter (fun p => decide (p.1 ∉ r.2.1))).map Prod.snd
  (_order_by_fractional_index reconciled, r.2.2)

/-- The scene region of one pad's cached record (`pad.data`): the three keyed
regions the worker touches.  A key missing from the dict behaves exactly like
the empty default the code supplies via `.get`, so each region is total. -/
structure PadData where
  elements : List Element
  files : List (String × String)
  appState : List (String × List (String × String))
deriving DecidableEq, Repr

/-- Payload of a `scene_update` event (`data.get("elements", [])`,
`data.get("files", {})`). -/
structure SceneUpdateData where
  elements : List Element
  files : List (String × String)
deriving DecidableEq, Repr

/-- `CanvasWorker.handle_scene_update`, as a transformer of the cached pad
data; the returned Bool is `changes_made` (whether `pad.cache()` is called). -/
def handle_scene_update (pad : PadData) (data : SceneUpdateData) : PadData × Bool :=
  let client_elements := data.elements
  let client_files := data.files
  -- `if client_files and client_files != pad.data.get("files", {})`
  let step1 : PadData × Bool :=
    if client_files ≠ [] ∧ pyDictEq client_files pad.files = false then
      ({ pad with files := client_files }, true)
    else (pad, false)
  -- `if client_elements:` reconcile and write back only when changed
  if client_elements ≠ [] then
    let r := _reconcile_elements step1.1.elements client_elements
    if r.2 = true then ({ step1.1 with elements := r.1 }, true)
    else step1
  else step1

/-- Payload of an `appstate_update` event (`data.get("appState", {})`). -/
structure AppStateUpdateData where
  appState : List (String × String)
deriving DecidableEq, Repr

/-- `CanvasWorker.handle_appstate_update`: last writer wins for the sender's
entire `appState` slot; an empty map returns early without touching the pad. -/
def handle_appstate_update (pad : PadData) (user_id : String)
    (data : AppStateUpdateData) : PadData :=
  let new_appstate := data.appState
  if new_appstate = [] then
    -- `if not new_appstate: return`
    pad
  else
    { pad with appState := dictInsert user_id new_appstate pad.appState }

/-- The cached pad record as `_release_pad_worker` sees it: scene data plus the
cache-only `worker_id` field. -/
structure PadRecord where
  data : PadData
  worker_id : Option String
deriving DecidableEq, Repr

/-- `CanvasWorker._release_pad_worker`: the cached record afterwards.  `none`
models `Pad.get_by_id` finding no pad. -/
def _release_pad_worker (pad : Option PadRecord) (self_worker_id : String) :
    Option PadRecord :=
  match pad with
  | none => none
  | some p =>
    -- only clear if this worker is actually assigned to the pad
    if p.worker_id = some self_worker_id then some { p with worker_id := none }
    else some p

/-- The `WebSocketMessage` pydantic model of `ws_router.py`.  The timestamp is
an opaque instant; `data` is the opaque JSON payload. -/
structure WebSocketMessage where
  type : String
  pad_id : Option String
  timestamp : Nat
  user_id : Option String
  connection_id : Option String
  data : Option String
deriving DecidableEq, Repr

/-- A successfully JSON-decoded inbound client frame: the keys
`_handle_received_data` reads (`type`, `data`) plus the sender-supplied
envelope fields, which the code never reads. -/
structure ClientFrame where
  type? : Option String
  data? : Option String
  pad_id? : Option String
  user_id? : Option String
  connection_id? : Option String
  timestamp? : Option String
deriving DecidableEq, Repr

/-- The two delivery paths of the event bus. -/
inductive Channel
  | stream
  | pointer
deriving DecidableEq, Repr

/-- `_handle_received_data`: `none` input models a frame that is not valid
JSON (`json.JSONDecodeError`), which the function catches and only logs, so it
publishes nothing.  A decoded frame is wrapped in a server-stamped
`WebSocketMessage` and routed by type. -/
def _handle_received_data (parsed : Option ClientFrame)
    (pad_id user_id connection_id : String) (now : Nat) :
    Option (Channel × WebSocketMessage) :=
  match parsed with
  | none => none
  | some client_message_dict =>
    let processed_message : WebSocketMessage :=
      { type := client_message_dict.type?.getD "unknown_client_message"
        pad_id := some pad_id
        user_id := some user_id
        connection_id := some connection_id
        timestamp := now
        data := client_message_dict.data? }
    if processed_message.type = "pointer_update" then
      some (Channel.pointer, processed_message)
    else
      some (Channel.stream, processed_message)

/-- What `receive_text` produced for one iteration of the inbound loop. -/
inductive Inbound
  | frame (parsed : Option ClientFrame)
  | disconnect
deriving DecidableEq, Repr

/-- Observable outcome of one iteration of `handle_websocket_messages`. -/
structure InboundStep where
  reply : Option WebSocketMessage
  published : Option (Channel × WebSocketMessage)
  continues : Bool
deriving DecidableEq, Repr

/-- One iteration of the `handle_websocket_messages` loop.  Note that
`_handle_received_data` catches `json.JSONDecodeError` internally (it only
prints), so the `except json.JSONDecodeError` branch of the loop — the one
that would reply with an `error` frame — is unreachable: invalid JSON yields
no reply and the loop continues. -/
def handle_websocket_messages_step (inbound : Inbound)
    (pad_id user_id connection_id : String) (now : Nat) : InboundStep :=
  match inbound with
  | .disconnect => { reply := none, published := none, continues := false }
  | .frame parsed =>
    { reply := none
      published := _handle_received_data parsed pad_id user_id connection_id now
      continues := true }

/-- The send guard of `consume_redis_stream`:
`message_to_send.connection_id != connection_id`. -/
def stream_should_forward (message_to_send : WebSocketMessage)
    (connection_id : String) : Bool :=
  decide (message_to_send.connection_id ≠ some connection_id)

/-- The send guard of `consume_pointer_updates`:
`pointer_message.connection_id != connection_id`. -/
def pointer_should_forward (pointer_message : WebSocketMessage)
    (connection_id : String) : Bool :=
  decide (pointer_message.connection_id ≠ some connection_id)

/-! ## Concrete data used by witnesses and counterexamples -/

/-- Server copy of element `e1` in the spec's S2 scenario. -/
def elemS2server : Element := ⟨"e1", some 1, some 5, some "a0", "srv"⟩

/-- Client A's proposal in the S2 scenario (version 2, nonce 9). -/
def elemS2a : Element := ⟨"e1", some 2, some 9, some "a0", "A"⟩

/-- Client B's proposal in the S2 scenario (version 2, nonce 3). -/
def elemS2b : Element := ⟨"e1", some 2, some 3, some "a0", "B"⟩

/-- A server element whose version dominates both S2 proposals. -/
def elemDomServer : Element := ⟨"e1", some 5, some 0, some "a0", "srv"⟩

/-- A pad whose cache already holds one file. -/
def padC3 : PadData := ⟨[], [("f1", "blob")], []⟩

/-- A pad with two users' appState slots populated. -/
def padC4 : PadData := ⟨[], [], [("u", [("tool", "pen")]), ("v", [("tool", "laser")])]⟩

/-- A cached pad record owned by worker `w1`. -/
def recordOwn : PadRecord := ⟨⟨[], [], []⟩, some "w1"⟩

/-- A cached pad record owned by a different worker `w2`. -/
def recordOther : PadRecord := ⟨⟨[], [], []⟩, some "w2"⟩

/-- An inbound frame whose sender spoofs every envelope field. -/
def frameC5 : ClientFrame :=
  ⟨some "scene_update", some "payload", some "spoof-pad", some "spoof-user",
    some "spoof-conn", some "spoof-time"⟩

/-- The message the hub actually publishes for `frameC5` on pad `p1` from user
`u1` over connection `c1` at instant 7. -/
def msgC5 : WebSocketMessage := ⟨"scene_update", some "p1", 7, some "u1", some "c1", some "payload"⟩

/-- A server element for the idempotence witness. -/
def elemC10s : Element := ⟨"a", some 1, some 1, some "a1", "s"⟩

/-- A client element for the idempotence witness. -/
def elemC10c : Element := ⟨"b", some 1, some 2, some "a0", "t"⟩

/-! ## Order lemmas for the sort key -/

theorem str_eq_of_data_eq {a b : String} (h : a.data = b.data) : a = b := by
  cases a; cases b; exact congrArg String.mk h

theorem keyLe_refl (a : Element) : keyLe a a :=
  Or.inr ⟨rfl, le_refl _⟩

theorem keyLe_of_sortKey_eq {a b : Element} (h : sortKey a = sortKey b) : keyLe a b := by
  refine Or.inr ⟨congrArg Prod.fst h, ?_⟩
  have : (sortKey a).2 = (sortKey b).2 := congrArg Prod.snd h
  exact this ▸ le_refl _

theorem keyLe_trans {a b c : Element} (hab : keyLe a b) (hbc : keyLe b c) : keyLe a c := by
  rcases hab with h₁ | ⟨e₁, l₁⟩
  · rcases hbc with h₂ | ⟨e₂, _⟩
    · exact Or.inl (lt_trans h₁ h₂)
    · exact Or.inl (e₂ ▸ h₁)
  · rcases hbc with h₂ | ⟨e₂, l₂⟩
    · exact Or.inl (e₁ ▸ h₂)
    · exact Or.inr ⟨e₁.trans e₂, le_trans l₁ l₂⟩

theorem keyLe_total (a b : Element) : keyLe a b ∨ keyLe b a := by
  rcases lt_trichotomy (sortKey a).1.data (sortKey b).1.data with h | h | h
  · exact Or.inl (Or.inl h)
  · have he : (sortKey a).1 = (sortKey b).1 := str_eq_of_data_eq h
    rcases le_total (sortKey a).2.data (sortKey b).2.data with h₂ | h₂
    · exact Or.inl (Or.inr ⟨he, h₂⟩)
    · exact Or.inr (Or.inr ⟨he.symm, h₂⟩)
  · exact Or.inr (Or.inl h)

theorem sortKey_eq_of_antisymm {a b : Element} (hab : keyLe a b) (hba : keyLe b a) :
    sortKey a = sortKey b := by
  rcases hab with h₁ | ⟨e₁, l₁⟩
  · rcases hba with h₂ | ⟨e₂, _⟩
    · exact absurd h₂ (lt_asymm h₁)
    · exact absurd h₁ (by rw [e₂]; exact lt_irrefl _)
  · rcases hba with h₂ | ⟨e₂, l₂⟩
    · exact absurd h₂ (by rw [e₁]; exact lt_irrefl _)
    · exact Prod.ext e₁ (str_eq_of_data_eq (le_antisymm l₁ l₂))

instance : IsTotal Element keyLe := ⟨keyLe_total⟩

instance : IsTrans Element keyLe := ⟨fun _ _ _ => keyLe_trans⟩

/-! ## Sorting lemmas -/

theorem perm_order_by_fractional_index (l : List Element) :
    List.Perm (_order_by_fractional_index l) l :=
  List.perm_insertionSort keyLe l

theorem sorted_order_by_fractional_index (l : List Element) :
    (_order_by_fractional_index l).Sorted keyLe :=
  List.sorted_insertionSort keyLe l

theorem sorted_order_eq {l : List Element} (h : l.Sorted keyLe) :
    _order_by_fractional_index l = l :=
  h.insertionSort_eq

theorem nodup_sortKey_of_nodup_id {l : List Element} (h : (l.map Element.id).Nodup) :
    (l.map sortKey).Nodup := by
  have he : l.map Element.id = (l.map sortKey).map Prod.snd := by
    simp [sortKey, Function.comp_def]
  rw [he] at h
  exact h.of_map _

theorem eq_of_perm_sorted_keys :
    ∀ {l₁ l₂ : List Element}, List.Perm l₁ l₂ → l₁.Sorted keyLe → l₂.Sorted keyLe →
      (l₁.map sortKey).Nodup → l₁ = l₂ := by
  intro l₁
  induction l₁ with
  | nil =>
    intro l₂ hp _ _ _
    exact (hp.symm.eq_nil).symm
  | cons x t₁ ih =>
    intro l₂ hp hs₁ hs₂ hn
    cases l₂ with
    | nil => exact absurd hp.eq_nil (by simp)
    | cons y t₂ =>
      have hxy : x = y := by
        have hx2 : x ∈ y :: t₂ := hp.mem_iff.mp (List.mem_cons_self x t₁)
        rcases List.mem_cons.mp hx2 with h | hxt₂
        · exact h
        · have hy1 : y ∈ x :: t₁ := hp.symm.mem_iff.mp (List.mem_cons_self y t₂)
          rcases List.mem_cons.mp hy1 with h | hyt₁
          · exact h.symm
          · have h₁ : keyLe x y := (List.sorted_cons.mp hs₁).1 y hyt₁
            have h₂ : keyLe y x := (List.sorted_cons.mp hs₂).1 x hxt₂
            have hk : sortKey x = sortKey y := sortKey_eq_of_antisymm h₁ h₂
            have hnk : sortKey x ∉ t₁.map sortKey := (List.nodup_cons.mp (by simpa using hn)).1
            exact absurd (hk ▸ List.mem_map_of_mem sortKey hyt₁) hnk
      subst hxy
      have ht : t₁ = t₂ :=
        ih hp.cons_inv (List.sorted_cons.mp hs₁).2 (List.sorted_cons.mp hs₂).2
          (List.nodup_cons.mp (by simpa using hn)).2
      rw [ht]

theorem order_congr_perm {l₁ l₂ : List Element} (hp : List.Perm l₁ l₂)
    (hn : (l₁.map sortKey).Nodup) :
    _order_by_fractional_index l₁ = _order_by_fractional_index l₂ := by
  refine eq_of_perm_sorted_keys
    (((perm_order_by_fractional_index l₁).trans hp).trans
      (perm_order_by_fractional_index l₂).symm)
    (sorted_order_by_fractional_index l₁) (sorted_order_by_fractional_index l₂) ?_
  exact (((perm_order_by_fractional_index l₁).map sortKey).nodup_iff).mpr hn

theorem filter_key_orderedInsert (k : String × String) (a : Element) (l : List Element) :
    (l.orderedInsert keyLe a).filter (fun e => decide (sortKey e = k)) =
      if sortKey a = k then a :: l.filter (fun e => decide (sortKey e = k))
      else l.filter (fun e => decide (sortKey e = k)) := by
  induction l with
  | nil => by_cases h : sortKey a = k <;> simp [List.orderedInsert, List.filter_cons, h]
  | cons b t ih =>
    by_cases hab : keyLe a b
    · rw [List.orderedInsert, if_pos hab]
      by_cases ha : sortKey a = k <;> simp [List.filter_cons, ha]
    · rw [List.orderedInsert, if_neg hab]
      have hnot : ¬(sortKey a = k ∧ sortKey b = k) := by
        rintro ⟨h₁, h₂⟩
        exact hab (keyLe_of_sortKey_eq (h₁.trans h₂.symm))
      by_cases ha : sortKey a = k
      · have hb : ¬ sortKey b = k := fun hb => hnot ⟨ha, hb⟩
        simp [List.filter_cons, ha, hb, ih]
      · by_cases hb : sortKey b = k <;> simp [List.filter_cons, ha, hb, ih]

theorem filter_key_order (k : String × String) (l : List Element) :
    (_order_by_fractional_index l).filter (fun e => decide (sortKey e = k)) =
      l.filter (fun e => decide (sortKey e = k)) := by
  unfold _order_by_fractional_index
  induction l with
  | nil => rfl
  | cons x t ih =>
    rw [List.insertionSort, filter_key_orderedInsert]
    by_cases hx : sortKey x = k <;> simp [List.filter_cons, hx, ih]

/-! ## Association-list (Python dict) lemmas -/

theorem dictGet_mem {α : Type} {m : List (String × α)} {k : String} {v : α}
    (h : dictGet m k = some v) : (k, v) ∈ m := by
  induction m with
  | nil => exact absurd h (by simp [dictGet])
  | cons p rest ih =>
    obtain ⟨k', v'⟩ := p
    by_cases hk : k' = k
    · subst hk
      simp [dictGet] at h
      simp [h]
    · simp [dictGet, hk] at h
      exact List.mem_cons_of_mem _ (ih h)

theorem dictGet_dictInsert_self {α : Type} (m : List (String × α)) (k : String) (v : α) :
    dictGet (dictInsert k v m) k = some v := by
  induction m with
  | nil => simp [dictInsert, dictGet]
  | cons p rest ih =>
    obtain ⟨k', v'⟩ := p
    by_cases hk : k' = k <;> simp [dictInsert, dictGet, hk, ih]

theorem dictGet_dictInsert_ne {α : Type} (m : List (String × α)) {k i : String} (v : α)
    (h : i ≠ k) : dictGet (dictInsert k v m) i = dictGet m i := by
  have hki : ¬ k = i := fun he => h he.symm
  induction m with
  | nil => simp [dictInsert, dictGet, hki]
  | cons p rest ih =>
    obtain ⟨k', v'⟩ := p
    by_cases hk : k' = k
    · subst hk
      simp [dictInsert, dictGet, hki]
    · rw [show dictInsert k v ((k', v') :: rest) = (k', v') :: dictInsert k v rest by
        simp [dictInsert, hk]]
      by_cases hi : k' = i <;> simp [dictGet, hi, ih]

theorem dictInsert_keys {α : Type} (k : String) (v : α) (m : List (String × α)) :
    (dictInsert k v m).map Prod.fst =
      if k ∈ m.map Prod.fst then m.map Prod.fst else m.map Prod.fst ++ [k] := by
  induction m with
  | nil => simp [dictInsert]
  | cons p rest ih =>
    obtain ⟨k', v'⟩ := p
    by_cases hk : k' = k
    · subst hk
      simp [dictInsert]
    · have hkk : ¬ k = k' := fun he => hk he.symm
      simp only [dictInsert, if_neg hk, List.map_cons, ih]
      by_cases hm : k ∈ rest.map Prod.fst <;> simp [hm, hkk]

theorem dictInsert_keys_nodup {α : Type} {m : List (String × α)} (k : String) (v : α)
    (h : (m.map Prod.fst).Nodup) : ((dictInsert k v m).map Prod.fst).Nodup := by
  rw [dictInsert_keys]
  by_cases hm : k ∈ m.map Prod.fst
  · simpa [hm] using h
  · rw [if_neg hm]
    exact List.Nodup.append h (List.nodup_singleton k) (by simpa using hm)

theorem dictInsert_mem {α : Type} {p : String × α} {k : String} {v : α}
    {m : List (String × α)} (h : p ∈ dictInsert k v m) : p ∈ m ∨ p = (k, v) := by
  induction m with
  | nil => simpa [dictInsert] using h
  | cons q rest ih =>
    obtain ⟨k', v'⟩ := q
    by_cases hk : k' = k
    · subst hk
      simp only [dictInsert, if_pos rfl] at h
      rcases List.mem_cons.mp h with h | h
      · exact Or.inr (by simpa using h)
      · exact Or.inl (List.mem_cons_of_mem _ h)
    · simp only [dictInsert, if_neg hk] at h
      rcases List.mem_cons.mp h with h | h
      · exact Or.inl (by simp [h])
      · rcases ih h with h | h
        · exact Or.inl (List.mem_cons_of_mem _ h)
        · exact Or.inr h

theorem dictInsert_append {α : Type} (k : String) (v : α) {m : List (String × α)}
    (h : k ∉ m.map Prod.fst) : dictInsert k v m = m ++ [(k, v)] := by
  induction m with
  | nil => simp [dictInsert]
  | cons p rest ih =>
    obtain ⟨k', v'⟩ := p
    simp only [List.map_cons, List.mem_cons] at h
    push_neg at h
    have hne : ¬ k' = k := fun he => h.1 he.symm
    simp [dictInsert, hne, ih h.2]

/-! ## `buildMap` lemmas -/

theorem buildMapGo_id :
    ∀ (l : List Element) (acc : List (String × Element)),
      (∀ p ∈ acc, Element.id p.2 = p.1) →
      ∀ p ∈ l.foldl (fun m e => dictInsert e.id e m) acc, Element.id p.2 = p.1 := by
  intro l
  induction l with
  | nil => intro acc hacc; exact hacc
  | cons e t ih =>
    intro acc hacc
    refine ih (dictInsert e.id e acc) ?_
    intro p hp
    rcases dictInsert_mem hp with h | h
    · exact hacc p h
    · rw [h]

theorem buildMap_id (S : List Element) :
    ∀ p ∈ buildMap S, Element.id p.2 = p.1 :=
  buildMapGo_id S [] (by simp)

theorem buildMapGo_keys_nodup :
    ∀ (l : List Element) (acc : List (String × Element)),
      (acc.map Prod.fst).Nodup →
      ((l.foldl (fun m e => dictInsert e.id e m) acc).map Prod.fst).Nodup := by
  intro l
  induction l with
  | nil => intro acc hacc; exact hacc
  | cons e t ih =>
    intro acc hacc
    exact ih (dictInsert e.id e acc) (dictInsert_keys_nodup e.id e hacc)

theorem buildMap_keys_nodup (S : List Element) :
    ((buildMap S).map Prod.fst).Nodup :=
  buildMapGo_keys_nodup S [] (by simp)

theorem buildMapGo_nodup :
    ∀ (l : List Element) (acc : List (String × Element)),
      (l.map Element.id).Nodup →
      (∀ i ∈ l.map Element.id, i ∉ acc.map Prod.fst) →
      l.foldl (fun m e => dictInsert e.id e m) acc = acc ++ l.map (fun e => (e.id, e)) := by
  intro l
  induction l with
  | nil => intro acc _ _; simp
  | cons e t ih =>
    intro acc hnd hdisj
    have he : e.id ∉ acc.map Prod.fst := hdisj e.id (by simp)
    have step : t.foldl (fun m e => dictInsert e.id e m) (dictInsert e.id e acc) =
        dictInsert e.id e acc ++ t.map (fun e => (e.id, e)) := by
      refine ih (dictInsert e.id e acc) ((List.nodup_cons.mp (by simpa using hnd)).2) ?_
      intro i hi
      rw [dictInsert_append e.id e he]
      simp only [List.map_append, List.map_cons, List.map_nil, List.mem_append]
      push_neg
      refine ⟨hdisj i (by simp [hi]), ?_⟩
      simp only [List.mem_singleton]
      intro hie
      exact (List.nodup_cons.mp (by simpa using hnd)).1 (hie ▸ hi)
    calc (e :: t).foldl (fun m e => dictInsert e.id e m) acc
        = t.foldl (fun m e => dictInsert e.id e m) (dictInsert e.id e acc) := rfl
      _ = dictInsert e.id e acc ++ t.map (fun e => (e.id, e)) := step
      _ = acc ++ (e.id, e) :: t.map (fun e => (e.id, e)) := by
          rw [dictInsert_append e.id e he]; simp
      _ = acc ++ (e :: t).map (fun e => (e.id, e)) := by simp

theorem buildMap_of_nodup {S : List Element} (h : (S.map Element.id).Nodup) :
    buildMap S = S.map (fun e => (e.id, e)) :=
  buildMapGo_nodup S [] h (by simp)

theorem dictGet_map_pair (l : List Element) (i : String) :
    dictGet (l.map (fun e => (e.id, e))) i = l.find? (fun e => decide (e.id = i)) := by
  induction l with
  | nil => simp [dictGet]
  | cons e t ih =>
    by_cases he : e.id = i
    · simp [dictGet, he, List.find?_cons_of_pos]
    · rw [List.map_cons]
      rw [show dictGet ((e.id, e) :: t.map (fun e => (e.id, e))) i
            = dictGet (t.map (fun e => (e.id, e))) i by simp [dictGet, he]]
      rw [List.find?_cons_of_neg _ (by simpa using he)]
      exact ih

theorem mapPair_filter (l : List Element) (q : String → Bool) :
    ((l.map (fun e => (e.id, e))).filter (fun p => q p.1)).map Prod.snd =
      l.filter (fun e => q e.id) := by
  induction l with
  | nil => rfl
  | cons e t ih =>
    by_cases hq : q e.id = true <;> simp [List.filter_cons, hq, ih]

theorem find?_id_of_mem_nodup :
    ∀ {l : List Element} {x : Element} {i : String},
      ((l.map Element.id).Nodup) → x ∈ l → x.id = i →
      l.find? (fun e => decide (e.id = i)) = some x := by
  intro l
  induction l with
  | nil => intro x i _ hx; exact absurd hx (by simp)
  | cons y t ih =>
    intro x i hn hx hi
    rcases List.mem_cons.mp hx with h | h
    · subst h
      exact List.find?_cons_of_pos _ (by simpa using hi)
    · by_cases hy : y.id = i
      · exfalso
        have hxi : i ∈ t.map Element.id := hi ▸ List.mem_map_of_mem Element.id h
        exact (List.nodup_cons.mp (by simpa using hn)).1 (hy ▸ hxi)
      · rw [List.find?_cons_of_neg _ (by simpa using hy)]
        exact ih (List.nodup_cons.mp (by simpa using hn)).2 h hi

/-! ## Discard-rule lemmas -/

theorem discard_some {s? : Option Element} {c : Element}
    (h : _should_discard_client_element s? c = true) : ∃ s, s? = some s := by
  cases s? with
  | none => exact absurd h (by simp [_should_discard_client_element])
  | some s => exact ⟨s, rfl⟩

theorem discard_self (c : Element) :
    _should_discard_client_element (some c) c = false := by
  simp [_should_discard_client_element]

theorem dictGet_id {smap : List (String × Element)}
    (hmap : ∀ p ∈ smap, Element.id p.2 = p.1) {i : String} {s : Element}
    (h : dictGet smap i = some s) : s.id = i :=
  hmap (i, s) (dictGet_mem h)

theorem winAgainst_id {smap : List (String × Element)}
    (hmap : ∀ p ∈ smap, Element.id p.2 = p.1) (c : Element) :
    (winAgainst (dictGet smap c.id) c).id = c.id := by
  unfold winAgainst
  by_cases h : _should_discard_client_element (dictGet smap c.id) c = true
  · obtain ⟨s, hs⟩ := discard_some h
    rw [if_pos h, hs]
    exact dictGet_id hmap hs
  · rw [if_neg h]

/-! ## Structural lemmas for the client-element loop -/

theorem loop_cons_skip (smap : List (String × Element)) (seen : List String)
    (c : Element) (cs : List Element) (h : c.id = "" ∨ c.id ∈ seen) :
    reconcileClientLoop smap seen (c :: cs) = reconcileClientLoop smap seen cs := by
  simp [reconcileClientLoop, h]

theorem loop_cons_recl (smap : List (String × Element)) (seen : List String)
    (c : Element) (cs : List Element) (h : ¬(c.id = "" ∨ c.id ∈ seen)) :
    (reconcileClientLoop smap seen (c :: cs)).1 =
      winAgainst (dictGet smap c.id) c :: (reconcileClientLoop smap (c.id :: seen) cs).1 := by
  rw [reconcileClientLoop, if_neg h]
  by_cases hd : _should_discard_client_element (dictGet smap c.id) c = true
  · obtain ⟨s, hs⟩ := discard_some hd
    rw [hs] at hd ⊢
    simp [hd, winAgainst]
  · simp only [Bool.not_eq_true] at hd
    simp [hd, winAgainst]

theorem loop_cons_seen (smap : List (String × Element)) (seen : List String)
    (c : Element) (cs : List Element) (h : ¬(c.id = "" ∨ c.id ∈ seen)) :
    (reconcileClientLoop smap seen (c :: cs)).2.1 =
      (reconcileClientLoop smap (c.id :: seen) cs).2.1 := by
  rw [reconcileClientLoop, if_neg h]
  by_cases hd : _should_discard_client_element (dictGet smap c.id) c = true
  · simp [hd]
  · simp only [Bool.not_eq_true] at hd
    simp [hd]

theorem loop_cons_flag (smap : List (String × Element)) (seen : List String)
    (c : Element) (cs : List Element) (h : ¬(c.id = "" ∨ c.id ∈ seen)) :
    (reconcileClientLoop smap seen (c :: cs)).2.2 =
      (if _should_discard_client_element (dictGet smap c.id) c then
        (reconcileClientLoop smap (c.id :: seen) cs).2.2
      else
        ((reconcileClientLoop smap (c.id :: seen) cs).2.2 ||
          decide (dictGet smap c.id ≠ some c))) := by
  rw [reconcileClientLoop, if_neg h]
  by_cases hd : _should_discard_client_element (dictGet smap c.id) c = true
  · simp [hd]
  · simp only [Bool.not_eq_true] at hd
    simp [hd]

theorem loop_seen_mem (smap : List (String × Element)) :
    ∀ (cs : List Element) (seen : List String) (i : String),
      i ∈ (reconcileClientLoop smap seen cs).2.1 ↔
        i ∈ seen ∨ (i ≠ "" ∧ i ∈ cs.map Element.id) := by
  intro cs
  induction cs with
  | nil => intro seen i; simp [reconcileClientLoop]
  | cons c t ih =>
    intro seen i
    by_cases hc : c.id = "" ∨ c.id ∈ seen
    · rw [loop_cons_skip smap seen c t hc, ih]
      constructor
      · rintro (h | ⟨h₁, h₂⟩)
        · exact Or.inl h
        · exact Or.inr ⟨h₁, by simp [h₂]⟩
      · rintro (h | ⟨h₁, h₂⟩)
        · exact Or.inl h
        · rw [List.map_cons] at h₂
          rcases List.mem_cons.mp h₂ with h₂ | h₂
          · subst h₂
            rcases hc with hc | hc
            · exact absurd hc h₁
            · exact Or.inl hc
          · exact Or.inr ⟨h₁, h₂⟩
    · rw [loop_cons_seen smap seen c t hc, ih]
      push_neg at hc
      constructor
      · rintro (h | ⟨h₁, h₂⟩)
        · rcases List.mem_cons.mp h with h | h
          · exact Or.inr ⟨h ▸ hc.1, by simp [h]⟩
          · exact Or.inl h
        · exact Or.inr ⟨h₁, by simp [h₂]⟩
      · rintro (h | ⟨h₁, h₂⟩)
        · exact Or.inl (List.mem_cons_of_mem _ h)
        · rw [List.map_cons] at h₂
          rcases List.mem_cons.mp h₂ with h₂ | h₂
          · exact Or.inl (by simp [h₂])
          · exact Or.inr ⟨h₁, h₂⟩

theorem winAgainst_absorb (s? : Option Element) (c : Element) :
    winAgainst (some (winAgainst s? c)) c = winAgainst s? c := by
  by_cases hd : _should_discard_client_element s? c = true
  · obtain ⟨s, hs⟩ := discard_some hd
    subst hs
    unfold winAgainst
    simp only [hd, if_true]
    simp only [Option.getD_some]
    simp [hd]
  · simp only [Bool.not_eq_true] at hd
    unfold winAgainst
    simp [hd, discard_self]

theorem discard_winAgainst (s? : Option Element) (c : Element) :
    _should_discard_client_element (some (winAgainst s? c)) c =
      _should_discard_client_element s? c := by
  by_cases hd : _should_discard_client_element s? c = true
  · obtain ⟨s, hs⟩ := discard_some hd
    subst hs
    unfold winAgainst
    simp [hd]
  · simp only [Bool.not_eq_true] at hd
    unfold winAgainst
    simp [hd, discard_self]

theorem loop_recl_props (smap : List (String × Element))
    (hmap : ∀ p ∈ smap, Element.id p.2 = p.1) :
    ∀ (cs : List Element) (seen : List String),
      (∀ e ∈ (reconcileClientLoop smap seen cs).1,
        e.id ≠ "" ∧ e.id ∉ seen ∧ e.id ∈ (reconcileClientLoop smap seen cs).2.1) ∧
      ((reconcileClientLoop smap seen cs).1.map Element.id).Nodup := by
  intro cs
  induction cs with
  | nil => intro seen; simp [reconcileClientLoop]
  | cons c t ih =>
    intro seen
    by_cases hc : c.id = "" ∨ c.id ∈ seen
    · rw [loop_cons_skip smap seen c t hc]
      exact ih seen
    · push_neg at hc
      have hc' : ¬(c.id = "" ∨ c.id ∈ seen) := by
        rintro (h | h)
        · exact hc.1 h
        · exact hc.2 h
      have hw : (winAgainst (dictGet smap c.id) c).id = c.id := winAgainst_id hmap c
      rw [loop_cons_recl smap seen c t hc', loop_cons_seen smap seen c t hc']
      obtain ⟨ihm, ihn⟩ := ih (c.id :: seen)
      constructor
      · intro e he
        rcases List.mem_cons.mp he with he | he
        · subst he
          refine ⟨?_, ?_, ?_⟩
          · rw [hw]; exact hc.1
          · rw [hw]; exact hc.2
          · rw [hw]
            exact (loop_seen_mem smap t (c.id :: seen) c.id).mpr (Or.inl (by simp))
        · obtain ⟨h₁, h₂, h₃⟩ := ihm e he
          exact ⟨h₁, fun hin => h₂ (List.mem_cons_of_mem _ hin), h₃⟩
      · rw [List.map_cons, hw]
        refine List.nodup_cons.mpr ⟨?_, ihn⟩
        intro hmem
        obtain ⟨e, he, hei⟩ := List.mem_map.mp hmem
        exact (ihm e he).2.1 (hei ▸ (by simp))

theorem loop_find_winner (smap : List (String × Element))
    (hmap : ∀ p ∈ smap, Element.id p.2 = p.1) :
    ∀ (cs : List Element) (seen : List String) (i : String) (c : Element),
      i ≠ "" → i ∉ seen → cs.find? (fun e => decide (e.id = i)) = some c →
      (reconcileClientLoop smap seen cs).1.find? (fun e => decide (e.id = i)) =
        some (winAgainst (dictGet smap i) c) := by
  intro cs
  induction cs with
  | nil => intro seen i c _ _ hfind; exact absurd hfind (by simp)
  | cons c₀ t ih =>
    intro seen i c hi hseen hfind
    by_cases hc : c₀.id = "" ∨ c₀.id ∈ seen
    · have hne : ¬(c₀.id = i) := by
        rintro rfl
        rcases hc with h | h
        · exact hi h
        · exact hseen h
      rw [loop_cons_skip smap seen c₀ t hc]
      rw [List.find?_cons_of_neg _ (by simpa using hne)] at hfind
      exact ih seen i c hi hseen hfind
    · rw [loop_cons_recl smap seen c₀ t hc]
      have hwid : (winAgainst (dictGet smap c₀.id) c₀).id = c₀.id := winAgainst_id hmap c₀
      by_cases hci : c₀.id = i
      · rw [List.find?_cons_of_pos _ (by simpa using hci)] at hfind
        have hc₀c : c₀ = c := by injection hfind
        subst hc₀c
        have hq : (winAgainst (dictGet smap c₀.id) c₀).id = i := hwid.trans hci
        rw [List.find?_cons_of_pos _ (by simp [hq])]
        rw [hci]
      · rw [List.find?_cons_of_neg _ (by simpa using hci)] at hfind
        rw [List.find?_cons_of_neg _ (by simp [hwid, hci])]
        exact ih (c₀.id :: seen) i c hi
          (by
            intro hmem
            rcases List.mem_cons.mp hmem with h | h
            · exact hci h.symm
            · exact hseen h)
          hfind

theorem loop_lockstep (smap smap2 : List (String × Element)) :
    ∀ (cs : List Element) (seen : List String),
      (∀ i c, i ≠ "" → i ∉ seen → cs.find? (fun e => decide (e.id = i)) = some c →
        dictGet smap2 i = some (winAgainst (dictGet smap i) c)) →
      (reconcileClientLoop smap2 seen cs).1 = (reconcileClientLoop smap seen cs).1 ∧
      (reconcileClientLoop smap2 seen cs).2.1 = (reconcileClientLoop smap seen cs).2.1 ∧
      (reconcileClientLoop smap2 seen cs).2.2 = false := by
  intro cs
  induction cs with
  | nil => intro seen _; simp [reconcileClientLoop]
  | cons c t ih =>
    intro seen H
    by_cases hc : c.id = "" ∨ c.id ∈ seen
    · rw [loop_cons_skip smap2 seen c t hc, loop_cons_skip smap seen c t hc]
      refine ih seen ?_
      intro i c' hi hs hf
      have hne : ¬(c.id = i) := by
        rintro rfl
        rcases hc with h | h
        · exact hi h
        · exact hs h
      exact H i c' hi hs (by rw [List.find?_cons_of_neg _ (by simpa using hne)]; exact hf)
    · have hcp : c.id ≠ "" ∧ c.id ∉ seen := by
        push_neg at hc
        exact hc
      have hw : dictGet smap2 c.id = some (winAgainst (dictGet smap c.id) c) :=
        H c.id c hcp.1 hcp.2 (List.find?_cons_of_pos _ (by simp))
      have ihres := ih (c.id :: seen) (by
        intro i c' hi hs hf
        have hne : ¬(c.id = i) := by
          intro he
          subst he
          exact hs (List.mem_cons_self _ _)
        exact H i c' hi (fun hin => hs (List.mem_cons_of_mem _ hin))
          (by rw [List.find?_cons_of_neg _ (by simpa using hne)]; exact hf))
      rw [loop_cons_recl smap2 seen c t hc, loop_cons_recl smap seen c t hc,
        loop_cons_seen smap2 seen c t hc, loop_cons_seen smap seen c t hc,
        loop_cons_flag smap2 seen c t hc]
      refine ⟨?_, ihres.2.1, ?_⟩
      · rw [hw, winAgainst_absorb, ihres.1]
      · rw [hw, discard_winAgainst, ihres.2.2]
        by_cases hd : _should_discard_client_element (dictGet smap c.id) c = true
        · simp [hd]
        · simp only [Bool.not_eq_true] at hd
          simp [hd, winAgainst]

/-! ## `_reconcile_elements` characterization -/

theorem filtered_vals_ids (smap : List (String × Element))
    (hmap : ∀ p ∈ smap, Element.id p.2 = p.1) (q : String × Element → Bool) :
    ((smap.filter q).map Prod.snd).map Element.id = (smap.filter q).map Prod.fst := by
  rw [List.map_map]
  exact List.map_congr_left (fun p hp => hmap p (List.mem_of_mem_filter hp))

theorem reconcile_merged_perm (S C : List Element) :
    List.Perm (_reconcile_elements S C).1
      ((reconcileClientLoop (buildMap S) [] C).1 ++
        ((buildMap S).filter
          (fun p => decide (p.1 ∉ (reconcileClientLoop (buildMap S) [] C).2.1))).map Prod.snd) :=
  perm_order_by_fractional_index _

theorem reconcile_ids_nodup (S C : List Element) :
    ((_reconcile_elements S C).1.map Element.id).Nodup := by
  have hmap := buildMap_id S
  have hperm := (reconcile_merged_perm S C).map Element.id
  rw [List.Perm.nodup_iff hperm]
  rw [List.map_append]
  set smap := buildMap S
  set r := reconcileClientLoop smap [] C with hr
  have hprops := loop_recl_props smap hmap C []
  refine List.Nodup.append hprops.2 ?_ ?_
  · rw [filtered_vals_ids smap hmap]
    exact ((buildMap_keys_nodup S).sublist ((List.filter_sublist _).map Prod.fst))
  · intro i hi₁ hi₂
    rw [filtered_vals_ids smap hmap] at hi₂
    obtain ⟨e, he, hei⟩ := List.mem_map.mp hi₁
    obtain ⟨p, hp, hpi⟩ := List.mem_map.mp hi₂
    have hes : e.id ∈ r.2.1 := (hprops.1 e he).2.2
    have hpn : p.1 ∉ r.2.1 := by
      have := (List.mem_filter.mp hp).2
      simpa using this
    exact hpn (hpi ▸ hei ▸ hes)

theorem reconcile_find (S C : List Element) (i : String) (c : Element)
    (hi : i ≠ "") (hfind : C.find? (fun e => decide (e.id = i)) = some c) :
    (_reconcile_elements S C).1.find? (fun e => decide (e.id = i)) =
      some (winAgainst (dictGet (buildMap S) i) c) := by
  have hmap := buildMap_id S
  have hrecl := loop_find_winner (buildMap S) hmap C [] i c hi (by simp) hfind
  set w := winAgainst (dictGet (buildMap S) i) c with hw
  have hwmem : w ∈ (reconcileClientLoop (buildMap S) [] C).1 :=
    List.mem_of_find?_eq_some hrecl
  have hwid : w.id = i := by
    have := List.find?_some hrecl
    simpa using this
  have hmem : w ∈ (_reconcile_elements S C).1 :=
    (reconcile_merged_perm S C).mem_iff.mpr (List.mem_append_left _ hwmem)
  exact find?_id_of_mem_nodup (reconcile_ids_nodup S C) hmem hwid

theorem reconcile_sorted (S C : List Element) :
    (_reconcile_elements S C).1.Sorted keyLe :=
  sorted_order_by_fractional_index _

theorem reconcile_idem (S C M : List Element) (ch : Bool)
    (h : _reconcile_elements S C = (M, ch)) :
    _reconcile_elements M C = (M, false) := by
  have hmap := buildMap_id S
  have hM1 : (_reconcile_elements S C).1 = M := by rw [h]
  have hMnodup : (M.map Element.id).Nodup := hM1 ▸ reconcile_ids_nodup S C
  have hMsorted : M.Sorted keyLe := hM1 ▸ reconcile_sorted S C
  have hbm : buildMap M = M.map (fun e => (e.id, e)) := buildMap_of_nodup hMnodup
  -- the lockstep hypothesis: the rebuilt map answers every processed id with
  -- the winner the first run chose
  have H : ∀ i c, i ≠ "" → i ∉ ([] : List String) →
      C.find? (fun e => decide (e.id = i)) = some c →
      dictGet (buildMap M) i = some (winAgainst (dictGet (buildMap S) i) c) := by
    intro i c hi _ hfind
    rw [hbm, dictGet_map_pair]
    rw [← hM1]
    exact reconcile_find S C i c hi hfind
  have hlock := loop_lockstep (buildMap S) (buildMap M) C [] H
  set r1 := reconcileClientLoop (buildMap S) [] C with hr1
  set r2 := reconcileClientLoop (buildMap M) [] C with hr2
  -- the second run's merged list is a permutation of M
  have hleft2 : ((buildMap M).filter (fun p => decide (p.1 ∉ r2.2.1))).map Prod.snd =
      M.filter (fun e => decide (e.id ∉ r2.2.1)) := by
    rw [hbm]
    exact mapPair_filter M (fun k => decide (k ∉ r2.2.1))
  have hseen : r2.2.1 = r1.2.1 := hlock.2.1
  have hrecl : r2.1 = r1.1 := hlock.1
  have hprops := loop_recl_props (buildMap S) hmap C []
  have hfilter_recl : r1.1.filter (fun e => decide (e.id ∉ r1.2.1)) = [] := by
    rw [List.filter_eq_nil_iff]
    intro e he
    simpa using (hprops.1 e he).2.2
  have hfilter_left :
      (((buildMap S).filter (fun p => decide (p.1 ∉ r1.2.1))).map Prod.snd).filter
        (fun e => decide (e.id ∉ r1.2.1)) =
      ((buildMap S).filter (fun p => decide (p.1 ∉ r1.2.1))).map Prod.snd := by
    rw [List.filter_eq_self]
    intro e he
    obtain ⟨p, hp, hpe⟩ := List.mem_map.mp he
    have h1 : Element.id p.2 = p.1 := hmap p (List.mem_of_mem_filter hp)
    have h2 : p.1 ∉ r1.2.1 := by simpa using (List.mem_filter.mp hp).2
    simpa [← hpe, h1] using h2
  have hMfperm : List.Perm (M.filter (fun e => decide (e.id ∉ r1.2.1)))
      (((buildMap S).filter (fun p => decide (p.1 ∉ r1.2.1))).map Prod.snd) := by
    have := ((reconcile_merged_perm S C).filter (fun e => decide (e.id ∉ r1.2.1)))
    rw [hM1, List.filter_append, hfilter_recl, hfilter_left] at this
    simpa using this
  have hmerged2_perm : List.Perm
      (r2.1 ++ ((buildMap M).filter (fun p => decide (p.1 ∉ r2.2.1))).map Prod.snd) M := by
    rw [hleft2, hrecl, hseen]
    refine List.Perm.trans (List.Perm.append_left r1.1 hMfperm) ?_
    exact List.Perm.trans (reconcile_merged_perm S C).symm (by rw [hM1])
  -- conclude: sorting the second merged list gives back M, and no change
  have hsort : _order_by_fractional_index
      (r2.1 ++ ((buildMap M).filter (fun p => decide (p.1 ∉ r2.2.1))).map Prod.snd) = M := by
    refine eq_of_perm_sorted_keys ?_ (sorted_order_by_fractional_index _) hMsorted ?_
    · exact List.Perm.trans (perm_order_by_fractional_index _) hmerged2_perm
    · refine (((perm_order_by_fractional_index _).trans hmerged2_perm).map sortKey).nodup_iff.mpr ?_
      exact nodup_sortKey_of_nodup_id hMnodup
  show (_order_by_fractional_index
      (r2.1 ++ ((buildMap M).filter (fun p => decide (p.1 ∉ r2.2.1))).map Prod.snd), r2.2.2) = (M, false)
  rw [hsort, hlock.2.2]

/-! ## The discard rule, propositionally -/

theorem discard_iff (s c : Element) :
    _should_discard_client_element (some s) c = true ↔
      (c.version.getD 0 < s.version.getD 0 ∨
        (c.version.getD 0 = s.version.getD 0 ∧
          s.versionNonce.getD 0 < c.versionNonce.getD 0)) := by
  simp only [_should_discard_client_element]
  split_ifs with h1 h2
  · simpa using Or.inl h1
  · simp only [Bool.false_eq_true, false_iff]
    rintro (h | ⟨he, _⟩) <;> omega
  · simp only [decide_eq_true_eq, gt_iff_lt]
    constructor
    · intro h
      exact Or.inr ⟨by omega, h⟩
    · rintro (h | ⟨_, h⟩)
      · omega
      · exact h

theorem discard_version_eq {a b : Element}
    (hab : a.version.getD 0 = b.version.getD 0) :
    _should_discard_client_element (some a) b = true ↔
      a.versionNonce.getD 0 < b.versionNonce.getD 0 := by
  rw [discard_iff]
  constructor
  · rintro (h | ⟨_, h⟩)
    · omega
    · exact h
  · intro h
    exact Or.inr ⟨by omega, h⟩

theorem winAgainst_none (c : Element) : winAgainst none c = c := by
  simp [winAgainst, _should_discard_client_element]

theorem winAgainst_comm (s? : Option Element) {c1 c2 : Element}
    (hv : c1.version.getD 0 = c2.version.getD 0)
    (hn : c1.versionNonce.getD 0 ≠ c2.versionNonce.getD 0) :
    winAgainst (some (winAgainst s? c1)) c2 = winAgainst (some (winAgainst s? c2)) c1 := by
  have h12 := discard_version_eq hv
  have h21 := discard_version_eq hv.symm
  cases s? with
  | none =>
    rw [winAgainst_none, winAgainst_none]
    rcases lt_or_gt_of_ne hn with h | h
    · have d1 : _should_discard_client_element (some c1) c2 = true := h12.mpr h
      have d2 : _should_discard_client_element (some c2) c1 = false := by
        have : ¬ _should_discard_client_element (some c2) c1 = true :=
          fun hd => absurd (h21.mp hd) (by omega)
        simpa using this
      simp [winAgainst, d1, d2]
    · have d1 : _should_discard_client_element (some c1) c2 = false := by
        have : ¬ _should_discard_client_element (some c1) c2 = true :=
          fun hd => absurd (h12.mp hd) (by omega)
        simpa using this
      have d2 : _should_discard_client_element (some c2) c1 = true := h21.mpr h
      simp [winAgainst, d1, d2]
  | some s =>
    by_cases ds1 : _should_discard_client_element (some s) c1 = true <;>
      by_cases ds2 : _should_discard_client_element (some s) c2 = true
    · simp [winAgainst, ds1, ds2]
    · have hp1 := (discard_iff s c1).mp ds1
      have hp2 : ¬(c2.version.getD 0 < s.version.getD 0 ∨
          (c2.version.getD 0 = s.version.getD 0 ∧
            s.versionNonce.getD 0 < c2.versionNonce.getD 0)) :=
        fun hp => ds2 ((discard_iff s c2).mpr hp)
      push_neg at hp2
      have hlt : c2.versionNonce.getD 0 < c1.versionNonce.getD 0 := by
        rcases hp1 with h | ⟨he, h⟩
        · omega
        · have := hp2.2 (by omega)
          omega
      have d21 : _should_discard_client_element (some c2) c1 = true := h21.mpr hlt
      have ds2' : _should_discard_client_element (some s) c2 = false := by simpa using ds2
      simp [winAgainst, ds1, ds2', d21]
    · have hp2 := (discard_iff s c2).mp ds2
      have hp1 : ¬(c1.version.getD 0 < s.version.getD 0 ∨
          (c1.version.getD 0 = s.version.getD 0 ∧
            s.versionNonce.getD 0 < c1.versionNonce.getD 0)) :=
        fun hp => ds1 ((discard_iff s c1).mpr hp)
      push_neg at hp1
      have hlt : c1.versionNonce.getD 0 < c2.versionNonce.getD 0 := by
        rcases hp2 with h | ⟨he, h⟩
        · omega
        · have := hp1.2 (by omega)
          omega
      have d12 : _should_discard_client_element (some c1) c2 = true := h12.mpr hlt
      have ds1' : _should_discard_client_element (some s) c1 = false := by simpa using ds1
      simp [winAgainst, ds1', ds2, d12]
    · have ds1' : _should_discard_client_element (some s) c1 = false := by simpa using ds1
      have ds2' : _should_discard_client_element (some s) c2 = false := by simpa using ds2
      rcases lt_or_gt_of_ne hn with h | h
      · have d12 : _should_discard_client_element (some c1) c2 = true := h12.mpr h
        have d21 : _should_discard_client_element (some c2) c1 = false := by
          have : ¬ _should_discard_client_element (some c2) c1 = true :=
            fun hd => absurd (h21.mp hd) (by omega)
          simpa using this
        simp [winAgainst, ds1', ds2', d12, d21]
      · have d12 : _should_discard_client_element (some c1) c2 = false := by
          have : ¬ _should_discard_client_element (some c1) c2 = true :=
            fun hd => absurd (h12.mp hd) (by omega)
          simpa using this
        have d21 : _should_discard_client_element (some c2) c1 = true := h21.mpr h
        simp [winAgainst, ds1', ds2', d12, d21]

/-! ## Reconciling a single proposal -/

theorem reconcile_singleton (S : List Element) (c : Element) (h : c.id ≠ "") :
    (_reconcile_elements S [c]).1 =
      _order_by_fractional_index
        (winAgainst (dictGet (buildMap S) c.id) c ::
          ((buildMap S).filter (fun p => decide (p.1 ≠ c.id))).map Prod.snd) := by
  have hns : ¬(c.id = "" ∨ c.id ∈ ([] : List String)) := by simp [h]
  show _order_by_fractional_index
      ((reconcileClientLoop (buildMap S) [] [c]).1 ++
        ((buildMap S).filter
          (fun p => decide (p.1 ∉ (reconcileClientLoop (buildMap S) [] [c]).2.1))).map Prod.snd) = _
  rw [loop_cons_recl (buildMap S) [] c [] hns]
  have hseen : (reconcileClientLoop (buildMap S) [] [c]).2.1 = [c.id] := by
    rw [loop_cons_seen (buildMap S) [] c [] hns]
    rfl
  rw [hseen]
  rw [show (reconcileClientLoop (buildMap S) (c.id :: []) []).1 = [] from rfl]
  rw [List.filter_congr (by
    intro p hp
    simp [List.mem_singleton] : ∀ p ∈ buildMap S,
      (decide (p.1 ∉ [c.id]) : Bool) = decide (p.1 ≠ c.id))]
  rfl

theorem rest_ids_ne (S : List Element) (i : String) :
    ∀ e ∈ ((buildMap S).filter (fun p => decide (p.1 ≠ i))).map Prod.snd, e.id ≠ i := by
  intro e he
  obtain ⟨p, hp, hpe⟩ := List.mem_map.mp he
  have h1 : Element.id p.2 = p.1 := buildMap_id S p (List.mem_of_mem_filter hp)
  have h2 : p.1 ≠ i := by simpa using (List.mem_filter.mp hp).2
  rw [← hpe, h1]
  exact h2

theorem reconcile_two_singletons (S : List Element) (c1 c2 : Element)
    (hid : c1.id = c2.id) (hne : c1.id ≠ "") :
    (_reconcile_elements (_reconcile_elements S [c1]).1 [c2]).1 =
      _order_by_fractional_index
        (winAgainst (some (winAgainst (dictGet (buildMap S) c1.id) c1)) c2 ::
          ((buildMap S).filter (fun p => decide (p.1 ≠ c1.id))).map Prod.snd) := by
  set i := c1.id with hi
  set smap := buildMap S with hsmap
  set w1 := winAgainst (dictGet smap i) c1 with hw1
  set restS := (smap.filter (fun p => decide (p.1 ≠ i))).map Prod.snd with hrest
  set M1 := (_reconcile_elements S [c1]).1 with hM1
  have hc2ne : c2.id ≠ "" := hid ▸ hne
  have hM1eq : M1 = _order_by_fractional_index (w1 :: restS) := reconcile_singleton S c1 hne
  have hM1nodup : (M1.map Element.id).Nodup := reconcile_ids_nodup S [c1]
  have hw1id : w1.id = i := winAgainst_id (buildMap_id S) c1
  have hfind1 : ([c1].find? (fun e => decide (e.id = i))) = some c1 :=
    List.find?_cons_of_pos _ (by simp)
  have hget : dictGet (buildMap M1) c2.id = some w1 := by
    rw [buildMap_of_nodup hM1nodup, dictGet_map_pair, ← hid]
    exact reconcile_find S [c1] i c1 hne hfind1
  have hstep2 : (_reconcile_elements M1 [c2]).1 =
      _order_by_fractional_index
        (winAgainst (dictGet (buildMap M1) c2.id) c2 ::
          ((buildMap M1).filter (fun p => decide (p.1 ≠ c2.id))).map Prod.snd) :=
    reconcile_singleton M1 c2 hc2ne
  rw [hstep2, hget]
  -- replace the filtered rebuilt map of M1 by the filtered original map
  have hfilterM1 : ((buildMap M1).filter (fun p => decide (p.1 ≠ c2.id))).map Prod.snd =
      M1.filter (fun e => decide (e.id ≠ c2.id)) := by
    rw [buildMap_of_nodup hM1nodup]
    exact mapPair_filter M1 (fun k => decide (k ≠ c2.id))
  rw [hfilterM1]
  have hpermM1 : List.Perm M1 (w1 :: restS) := by
    rw [hM1eq]
    exact perm_order_by_fractional_index _
  have hfiltperm : List.Perm (M1.filter (fun e => decide (e.id ≠ c2.id))) restS := by
    have h1 := hpermM1.filter (fun e => decide (e.id ≠ c2.id))
    have h2 : (w1 :: restS).filter (fun e => decide (e.id ≠ c2.id)) = restS := by
      rw [List.filter_cons]
      have hw1c2 : ¬(w1.id ≠ c2.id) := by
        simp [hw1id, hid]
      rw [if_neg (by simpa using hw1c2)]
      rw [List.filter_eq_self]
      intro e he
      have := rest_ids_ne S i e (by rw [hrest] at he; exact he)
      simpa [hid] using this
    rw [h2] at h1
    exact h1
  have hw2id : (winAgainst (some w1) c2).id = c2.id := by
    unfold winAgainst
    by_cases hd : _should_discard_client_element (some w1) c2 = true
    · rw [if_pos hd]
      simp only [Option.getD_some]
      rw [hw1id]
      exact hid
    · rw [if_neg hd]
  refine order_congr_perm (List.Perm.cons _ hfiltperm) ?_
  refine nodup_sortKey_of_nodup_id ?_
  rw [List.map_cons, hw2id]
  refine List.nodup_cons.mpr ⟨?_, ?_⟩
  · intro hmem
    obtain ⟨e, he, hei⟩ := List.mem_map.mp hmem
    have h1 : e.id ≠ c2.id := by
      simpa using (List.mem_filter.mp he).2
    exact h1 hei
  · have hsub : List.Sublist (M1.filter (fun e => decide (e.id ≠ c2.id))) M1 :=
      List.filter_sublist M1
    exact hM1nodup.sublist (hsub.map Element.id)

/-! ## Connection-hub helper lemmas -/

theorem handle_received_eq {frame : ClientFrame} {pad_id user_id connection_id : String}
    {now : Nat} {ch : Channel} {m : WebSocketMessage}
    (h : _handle_received_data (some frame) pad_id user_id connection_id now = some (ch, m)) :
    m = { type := frame.type?.getD "unknown_client_message"
          pad_id := some pad_id
          user_id := some user_id
          connection_id := some connection_id
          timestamp := now
          data := frame.data? } ∧
    ch = (if frame.type?.getD "unknown_client_message" = "pointer_update" then Channel.pointer
          else Channel.stream) := by
  unfold _handle_received_data at h
  dsimp only at h
  by_cases ht : frame.type?.getD "unknown_client_message" = "pointer_update"
  · rw [if_pos ht] at h
    have h' := Option.some.inj h
    injection h' with hch hm
    exact ⟨hm.symm, by rw [if_pos ht, ← hch]⟩
  · rw [if_neg ht] at h
    have h' := Option.some.inj h
    injection h' with hch hm
    exact ⟨hm.symm, by rw [if_neg ht, ← hch]⟩

/-! ## Claim theorems -/

/-- C1: a client element is discarded in favour of the server element iff the
server element exists and either the client's version (default 0) is strictly
below the server's, or the versions are equal and the client's versionNonce is
strictly greater than the server's; in every other case the client element is
accepted. -/
theorem C1_discard_rule (s? : Option Element) (c : Element) :
    _should_discard_client_element s? c = true ↔
      ∃ s, s? = some s ∧
        (c.version.getD 0 < s.version.getD 0 ∨
          (c.version.getD 0 = s.version.getD 0 ∧
            c.versionNonce.getD 0 > s.versionNonce.getD 0)) := by
  cases s? with
  | none => simp [_should_discard_client_element]
  | some s =>
    rw [discard_iff]
    constructor
    · intro h
      exact ⟨s, rfl, by simpa [gt_iff_lt] using h⟩
    · rintro ⟨s', hs', h⟩
      have : s' = s := by injection hs' with h'; exact h'.symm
      subst this
      simpa [gt_iff_lt] using h

/-- C9: `_order_by_fractional_index` returns a permutation of its input that is
sorted by the key `(index or "", id)` under lexicographic string comparison,
stably (elements with equal keys keep their relative order: filtering by any
key commutes with the sort), and every element with a falsy (missing or empty)
index precedes every element with a non-empty one; the list returned by
`_reconcile_elements` is sorted this way. -/
theorem C9_fractional_order :
    (∀ elements : List Element,
      List.Perm (_order_by_fractional_index elements) elements ∧
      (_order_by_fractional_index elements).Sorted keyLe ∧
      (∀ k : String × String,
        (_order_by_fractional_index elements).filter (fun e => decide (sortKey e = k)) =
          elements.filter (fun e => decide (sortKey e = k))) ∧
      (_order_by_fractional_index elements).Pairwise
        (fun a b => (sortKey a).1 ≠ "" → (sortKey b).1 ≠ "")) ∧
    (∀ S C : List Element, (_reconcile_elements S C).1.Sorted keyLe) := by
  have missing : ∀ {a b : Element}, keyLe a b → (sortKey a).1 ≠ "" → (sortKey b).1 ≠ "" := by
    intro a b hab h1 hb0
    rcases hab with h | ⟨he, _⟩
    · rw [hb0] at h
      exact absurd h (not_lt.mpr List.nil_le)
    · exact h1 (he.trans hb0)
  refine ⟨fun elements => ⟨perm_order_by_fractional_index elements,
    sorted_order_by_fractional_index elements,
    fun k => filter_key_order k elements, ?_⟩, fun S C => reconcile_sorted S C⟩
  exact (sorted_order_by_fractional_index elements).imp missing

/-- C3 (amended): on a `scene_update` the server's files map is replaced
wholesale by the client-supplied one iff the client map is non-empty and
differs from the server's (Python dict inequality); element reconciliation
never touches the files region; and when `client_elements` is empty the
elements region is untouched while files may still update. -/
theorem C3_scene_update (pad : PadData) (d : SceneUpdateData) :
    (handle_scene_update pad d).1.files =
      (if d.files ≠ [] ∧ pyDictEq d.files pad.files = false then d.files else pad.files) ∧
    (d.elements = [] → (handle_scene_update pad d).1.elements = pad.elements) := by
  by_cases hf : d.files ≠ [] ∧ pyDictEq d.files pad.files = false
  · constructor
    · rw [if_pos hf]
      unfold handle_scene_update
      dsimp only
      rw [if_pos hf]
      by_cases he : d.elements ≠ []
      · rw [if_pos he]
        by_cases hr : (_reconcile_elements ({ pad with files := d.files } : PadData).elements
            d.elements).2 = true <;> simp [hr]
      · rw [if_neg he]
    · intro he
      unfold handle_scene_update
      dsimp only
      rw [if_pos hf, if_neg (by simpa using congrArg (· ≠ ([] : List Element)) he)]
  · constructor
    · rw [if_neg hf]
      unfold handle_scene_update
      dsimp only
      rw [if_neg hf]
      by_cases he : d.elements ≠ []
      · rw [if_pos he]
        by_cases hr : (_reconcile_elements (pad, false).1.elements d.elements).2 = true <;>
          simp [hr]
      · rw [if_neg he]
    · intro he
      unfold handle_scene_update
      dsimp only
      rw [if_neg hf, if_neg (by simpa using congrArg (· ≠ ([] : List Element)) he)]

/-- C3 witness: a scene update with empty elements and fresh files leaves the
elements untouched while the files condition governs the files region. -/
theorem C3_scene_update_witness :
    (⟨[], [("f1", "new")]⟩ : SceneUpdateData).elements = [] ∧
    (handle_scene_update padC3 ⟨[], [("f1", "new")]⟩).1.elements = padC3.elements ∧
    (handle_scene_update padC3 ⟨[], [("f1", "new")]⟩).1.files = [("f1", "new")] := by
  have h := C3_scene_update padC3 ⟨[], [("f1", "new")]⟩
  refine ⟨rfl, h.2 rfl, ?_⟩
  rw [h.1, if_pos]
  constructor
  · decide
  · decide

/-- C3 counterexample to the claim as stated: an empty client files map that
differs from the server's files is NOT written (the code also requires the
client map to be truthy), so "replaced iff differs" fails. -/
theorem C3_counterexample :
    pyDictEq (⟨[], []⟩ : SceneUpdateData).files padC3.files = false ∧
    (⟨[], []⟩ : SceneUpdateData).files ≠ padC3.files ∧
    (handle_scene_update padC3 ⟨[], []⟩).1.files = padC3.files := by decide

/-- C4 (amended): an `appstate_update` from user `u` carrying a non-empty
appState map overwrites the slot `appState[u]` entirely, and every other
user's slot as well as the elements and files regions are left unchanged. -/
theorem C4_appstate_update (pad : PadData) (u : String) (d : AppStateUpdateData)
    (h : d.appState ≠ []) :
    dictGet (handle_appstate_update pad u d).appState u = some d.appState ∧
    (∀ v, v ≠ u →
      dictGet (handle_appstate_update pad u d).appState v = dictGet pad.appState v) ∧
    (handle_appstate_update pad u d).elements = pad.elements ∧
    (handle_appstate_update pad u d).files = pad.files := by
  unfold handle_appstate_update
  rw [if_neg h]
  exact ⟨dictGet_dictInsert_self _ _ _, fun v hv => dictGet_dictInsert_ne _ _ hv, rfl, rfl⟩

/-- C4 witness: a concrete non-empty appState update for user `u` lands in
`u`'s slot and leaves `v`'s slot, elements and files alone. -/
theorem C4_appstate_update_witness :
    dictGet (handle_appstate_update padC4 "u" ⟨[("tool", "eraser")]⟩).appState "u" =
      some [("tool", "eraser")] ∧
    dictGet (handle_appstate_update padC4 "u" ⟨[("tool", "eraser")]⟩).appState "v" =
      dictGet padC4.appState "v" := by
  have h := C4_appstate_update padC4 "u" ⟨[("tool", "eraser")]⟩ (by decide)
  exact ⟨h.1, h.2.1 "v" (by decide)⟩

/-- C4 counterexample to the claim as stated: an update carrying an empty
appState map returns early, so the sender's slot is NOT overwritten with the
supplied (empty) map. -/
theorem C4_counterexample :
    handle_appstate_update padC4 "u" ⟨[]⟩ = padC4 ∧
    dictGet (handle_appstate_update padC4 "u" ⟨[]⟩).appState "u" ≠ some [] := by decide

/-- C8: releasing a pad clears the cached worker id iff the record currently
names this worker's own id; a record naming a different worker (or none) is
returned unchanged, and a missing pad record stays missing. -/
theorem C8_release_rule (p : PadRecord) (wid : String) :
    (p.worker_id = some wid →
      _release_pad_worker (some p) wid = some { p with worker_id := none }) ∧
    (p.worker_id ≠ some wid → _release_pad_worker (some p) wid = some p) ∧
    _release_pad_worker none wid = none := by
  refine ⟨fun h => ?_, fun h => ?_, rfl⟩
  · show (if p.worker_id = some wid then some { p with worker_id := none } else some p) =
      some { p with worker_id := none }
    rw [if_pos h]
  · show (if p.worker_id = some wid then some { p with worker_id := none } else some p) = some p
    rw [if_neg h]

/-- C8 witness: the owning worker's release clears the claim; a different
worker's claim is left intact. -/
theorem C8_release_rule_witness :
    _release_pad_worker (some recordOwn) "w1" = some { recordOwn with worker_id := none } ∧
    _release_pad_worker (some recordOther) "w1" = some recordOther :=
  ⟨(C8_release_rule recordOwn "w1").1 (by decide),
    (C8_release_rule recordOther "w1").2.1 (by decide)⟩

/-- C6: the code_bug evaluation — an inbound frame that is not valid JSON
(`parsed = none`) produces NO reply frame at all (the `error` reply branch in
`handle_websocket_messages` is unreachable because `_handle_received_data`
swallows `json.JSONDecodeError`), while the loop does continue. -/
theorem C6_invalid_json_step (pad_id user_id connection_id : String) (now : Nat) :
    handle_websocket_messages_step (Inbound.frame none) pad_id user_id connection_id now =
      { reply := none, published := none, continues := true } := rfl

/-- C5: every message published for a frame received on connection `cid`
carries `connection_id = cid`, so both the durable-stream forwarder and the
pointer forwarder of that same connection refuse to send it back, and either
forwarder transmits a message iff its `connection_id` differs from the
forwarder's own. -/
theorem C5_echo_suppression (frame : ClientFrame) (pid uid cid : String) (now : Nat)
    (ch : Channel) (m : WebSocketMessage)
    (h : _handle_received_data (some frame) pid uid cid now = some (ch, m)) :
    m.connection_id = some cid ∧
    stream_should_forward m cid = false ∧
    pointer_should_forward m cid = false ∧
    (∀ own : String, stream_should_forward m own = true ↔ m.connection_id ≠ some own) ∧
    (∀ own : String, pointer_should_forward m own = true ↔ m.connection_id ≠ some own) := by
  have hm : m.connection_id = some cid := by
    rw [(handle_received_eq h).1]
  refine ⟨hm, ?_, ?_, ?_, ?_⟩
  · simp [stream_should_forward, hm]
  · simp [pointer_should_forward, hm]
  · intro own
    simp [stream_should_forward]
  · intro own
    simp [pointer_should_forward]

/-- C5 witness: the spoofing frame published from connection `c1` is stamped
with `c1` and is withheld from `c1` itself but forwarded to another
connection. -/
theorem C5_echo_suppression_witness :
    _handle_received_data (some frameC5) "p1" "u1" "c1" 7 = some (Channel.stream, msgC5) ∧
    stream_should_forward msgC5 "c1" = false ∧
    pointer_should_forward msgC5 "c1" = false ∧
    stream_should_forward msgC5 "c2" = true := by
  have hh : _handle_received_data (some frameC5) "p1" "u1" "c1" 7 =
      some (Channel.stream, msgC5) := by decide
  have h := C5_echo_suppression frameC5 "p1" "u1" "c1" 7 Channel.stream msgC5 hh
  exact ⟨hh, h.2.1, h.2.2.1, (h.2.2.2.1 "c2").mpr (by decide)⟩

/-- C7: the published envelope is entirely server-stamped — two decoded
frames that agree on `type` and `data` but differ arbitrarily in the
sender-supplied envelope fields publish to the same channel and produce
identical envelopes apart from the server timestamp, and the envelope carries
the server-determined pad id, user id, connection id and timestamp. -/
theorem C7_server_stamping (f1 f2 : ClientFrame) (pid uid cid : String) (t1 t2 : Nat)
    (htype : f1.type? = f2.type?) (hdata : f1.data? = f2.data?)
    (ch1 ch2 : Channel) (m1 m2 : WebSocketMessage)
    (h1 : _handle_received_data (some f1) pid uid cid t1 = some (ch1, m1))
    (h2 : _handle_received_data (some f2) pid uid cid t2 = some (ch2, m2)) :
    m1.pad_id = some pid ∧ m1.user_id = some uid ∧ m1.connection_id = some cid ∧
    m1.timestamp = t1 ∧ ch1 = ch2 ∧ { m1 with timestamp := t2 } = m2 := by
  obtain ⟨hm1, hc1⟩ := handle_received_eq h1
  obtain ⟨hm2, hc2⟩ := handle_received_eq h2
  subst hm1
  subst hm2
  refine ⟨rfl, rfl, rfl, rfl, ?_, ?_⟩
  · rw [hc1, hc2, htype]
  · rw [htype, hdata]

/-- C7 witness: two frames spoofing different envelope fields but with the
same type and data yield identical published envelopes up to the server
timestamp. -/
theorem C7_server_stamping_witness :
    { msgC5 with timestamp := 9 } =
      (⟨"scene_update", some "p1", 9, some "u1", some "c1", some "payload"⟩ :
        WebSocketMessage) := by
  have h := C7_server_stamping frameC5
    ⟨some "scene_update", some "payload", none, none, none, none⟩ "p1" "u1" "c1" 7 9
    (by decide) (by decide) Channel.stream Channel.stream msgC5
    ⟨"scene_update", some "p1", 9, some "u1", some "c1", some "payload"⟩
    (by decide) (by decide)
  exact h.2.2.2.2.2

/-! ## Nonce arithmetic for the tie-break claim -/

theorem winAgainst_some_id {w c : Element} (hw : w.id = c.id) :
    (winAgainst (some w) c).id = c.id := by
  unfold winAgainst
  by_cases hd : _should_discard_client_element (some w) c = true
  · rw [if_pos hd]
    exact hw
  · rw [if_neg hd]

theorem rest_ids_nodup (S : List Element) (i : String) :
    ((((buildMap S).filter (fun p => decide (p.1 ≠ i))).map Prod.snd).map Element.id).Nodup := by
  rw [filtered_vals_ids (buildMap S) (buildMap_id S)]
  exact (buildMap_keys_nodup S).sublist ((List.filter_sublist _).map Prod.fst)

theorem winAgainst_nonce_min (s? : Option Element) {c1 c2 : Element}
    (hv : c1.version.getD 0 = c2.version.getD 0)
    (hn : c1.versionNonce.getD 0 ≠ c2.versionNonce.getD 0)
    (hP : s? = none ∨ ∃ s, s? = some s ∧
      (s.version.getD 0 < c1.version.getD 0 ∨
        (s.version.getD 0 = c1.version.getD 0 ∧
          min (c1.versionNonce.getD 0) (c2.versionNonce.getD 0) ≤ s.versionNonce.getD 0))) :
    (winAgainst (some (winAgainst s? c1)) c2).versionNonce.getD 0 =
      min (c1.versionNonce.getD 0) (c2.versionNonce.getD 0) := by
  have h12 := discard_version_eq hv
  rcases hP with hP | ⟨s, hs, hcond⟩
  · subst hP
    rw [winAgainst_none]
    rcases lt_or_gt_of_ne hn with h | h
    · have d : _should_discard_client_element (some c1) c2 = true := h12.mpr h
      simp only [winAgainst, d, if_true, Option.getD_some]
      omega
    · have d : _should_discard_client_element (some c1) c2 = false := by
        have hd : ¬ _should_discard_client_element (some c1) c2 = true :=
          fun hd => absurd (h12.mp hd) (by omega)
        simpa using hd
      simp only [winAgainst, d, Bool.false_eq_true, if_false]
      omega
  · subst hs
    by_cases ds1 : _should_discard_client_element (some s) c1 = true
    · have hp1 := (discard_iff s c1).mp ds1
      have hfacts : s.version.getD 0 = c1.version.getD 0 ∧
          s.versionNonce.getD 0 < c1.versionNonce.getD 0 ∧
          c2.versionNonce.getD 0 ≤ s.versionNonce.getD 0 := by
        rcases hp1 with h | ⟨he, hchk⟩ <;> rcases hcond with h' | ⟨he', h''⟩ <;>
          exact ⟨by omega, by omega, by omega⟩
      have ds2 : _should_discard_client_element (some s) c2 = false := by
        have hd : ¬ _should_discard_client_element (some s) c2 = true := by
          intro hd
          rcases (discard_iff s c2).mp hd with h | ⟨_, h⟩ <;> omega
        simpa using hd
      simp only [winAgainst, ds1, if_true, Option.getD_some, ds2, Bool.false_eq_true, if_false]
      omega
    · have ds1' : _should_discard_client_element (some s) c1 = false := by simpa using ds1
      rcases lt_or_gt_of_ne hn with h | h
      · have d : _should_discard_client_element (some c1) c2 = true := h12.mpr h
        simp only [winAgainst, ds1', Bool.false_eq_true, if_false, d, if_true, Option.getD_some]
        omega
      · have d : _should_discard_client_element (some c1) c2 = false := by
          have hd : ¬ _should_discard_client_element (some c1) c2 = true :=
            fun hd => absurd (h12.mp hd) (by omega)
          simpa using hd
        simp only [winAgainst, ds1', Bool.false_eq_true, if_false, d]
        omega

/-- C2 (amended): for two client proposals for the same non-empty element id
with equal version and distinct versionNonce, reconciling them (as successive
scene updates) in either order yields the same final merged list; whenever the
server's entry for that id — if any — does not itself dominate both proposals
(its version is smaller, or it ties with a versionNonce at least the lower
proposal nonce), the element in the final list carries the lower versionNonce.
For two identical proposals, reconciling in either order yields the same
result. -/
theorem C2_nonce_tiebreak :
    (∀ (S : List Element) (c1 c2 : Element),
      c1.id = c2.id → c1.id ≠ "" →
      c1.version.getD 0 = c2.version.getD 0 →
      c1.versionNonce.getD 0 ≠ c2.versionNonce.getD 0 →
      (_reconcile_elements (_reconcile_elements S [c1]).1 [c2]).1 =
        (_reconcile_elements (_reconcile_elements S [c2]).1 [c1]).1 ∧
      ((dictGet (buildMap S) c1.id = none ∨
        (∃ s, dictGet (buildMap S) c1.id = some s ∧
          (s.version.getD 0 < c1.version.getD 0 ∨
            (s.version.getD 0 = c1.version.getD 0 ∧
              min (c1.versionNonce.getD 0) (c2.versionNonce.getD 0) ≤
                s.versionNonce.getD 0)))) →
        ((_reconcile_elements (_reconcile_elements S [c1]).1 [c2]).1.find?
            (fun e => decide (e.id = c1.id))).map (fun e => e.versionNonce.getD 0) =
          some (min (c1.versionNonce.getD 0) (c2.versionNonce.getD 0)))) ∧
    (∀ (S : List Element) (c1 c2 : Element), c1 = c2 →
      (_reconcile_elements (_reconcile_elements S [c1]).1 [c2]).1 =
        (_reconcile_elements (_reconcile_elements S [c2]).1 [c1]).1) := by
  constructor
  · intro S c1 c2 hid hne hv hn
    have hAB := reconcile_two_singletons S c1 c2 hid hne
    have hBA := reconcile_two_singletons S c2 c1 hid.symm (hid ▸ hne)
    constructor
    · rw [hAB, hBA, ← hid, winAgainst_comm (dictGet (buildMap S) c1.id) hv hn]
    · intro hP
      rw [hAB]
      set w1 := winAgainst (dictGet (buildMap S) c1.id) c1 with hw1
      set w2 := winAgainst (some w1) c2 with hw2
      have hw1id : w1.id = c1.id := winAgainst_id (buildMap_id S) c1
      have hw2id : w2.id = c1.id := by
        rw [hw2]
        rw [hid]
        exact winAgainst_some_id (hw1id.trans hid)
      set restS := ((buildMap S).filter (fun p => decide (p.1 ≠ c1.id))).map Prod.snd
        with hrest
      have hnodup : ((w2 :: restS).map Element.id).Nodup := by
        rw [List.map_cons, hw2id]
        refine List.nodup_cons.mpr ⟨?_, rest_ids_nodup S c1.id⟩
        intro hmem
        obtain ⟨e, he, hei⟩ := List.mem_map.mp hmem
        exact rest_ids_ne S c1.id e he hei
      have hsortnodup :
          ((_order_by_fractional_index (w2 :: restS)).map Element.id).Nodup :=
        (((perm_order_by_fractional_index (w2 :: restS)).map Element.id).nodup_iff).mpr hnodup
      have hmem : w2 ∈ _order_by_fractional_index (w2 :: restS) :=
        (perm_order_by_fractional_index (w2 :: restS)).mem_iff.mpr (List.mem_cons_self _ _)
      rw [find?_id_of_mem_nodup hsortnodup hmem hw2id]
      exact congrArg some (winAgainst_nonce_min (dictGet (buildMap S) c1.id) hv hn hP)
  · intro S c1 c2 h
    subst h
    rfl

/-- C2 witness: the spec's S2 scenario — server holds version 1, clients A and
B race with version 2, nonces 9 and 3; both orders agree and nonce 3 wins. -/
theorem C2_nonce_tiebreak_witness :
    (_reconcile_elements (_reconcile_elements [elemS2server] [elemS2a]).1 [elemS2b]).1 =
      (_reconcile_elements (_reconcile_elements [elemS2server] [elemS2b]).1 [elemS2a]).1 ∧
    ((_reconcile_elements (_reconcile_elements [elemS2server] [elemS2a]).1 [elemS2b]).1.find?
        (fun e => decide (e.id = elemS2a.id))).map (fun e => e.versionNonce.getD 0) =
      some 3 := by
  have h := C2_nonce_tiebreak.1 [elemS2server] elemS2a elemS2b
    (by decide) (by decide) (by decide) (by decide)
  refine ⟨h.1, ?_⟩
  have h2 := h.2 (Or.inr ⟨elemS2server, by decide, Or.inl (by decide)⟩)
  exact h2.trans (by decide)

/-- C2 counterexample to the claim as stated: with a server element of higher
version (5, nonce 0), two equal-version distinct-nonce proposals are both
discarded, so the final element carries the server's nonce 0 — not the lower
proposal nonce min 9 3 = 3. -/
theorem C2_counterexample :
    elemS2a.id = elemS2b.id ∧ elemS2a.id ≠ "" ∧
    elemS2a.version.getD 0 = elemS2b.version.getD 0 ∧
    elemS2a.versionNonce.getD 0 ≠ elemS2b.versionNonce.getD 0 ∧
    ((_reconcile_elements (_reconcile_elements [elemDomServer] [elemS2a]).1 [elemS2b]).1.find?
        (fun e => decide (e.id = elemS2a.id))).map (fun e => e.versionNonce.getD 0) = some 0 ∧
    ((_reconcile_elements (_reconcile_elements [elemDomServer] [elemS2a]).1 [elemS2b]).1.find?
        (fun e => decide (e.id = elemS2a.id))).map (fun e => e.versionNonce.getD 0) ≠
      some (min (elemS2a.versionNonce.getD 0) (elemS2b.versionNonce.getD 0)) := by decide

/-- C10: element reconciliation is idempotent — if reconciling client list `C`
against server list `S` yields `(M, ch)`, then reconciling the same `C`
against `M` returns `M` itself and reports no change. -/
theorem C10_reconcile_idempotent (S C M : List Element) (ch : Bool)
    (h : _reconcile_elements S C = (M, ch)) :
    _reconcile_elements M C = (M, false) :=
  reconcile_idem S C M ch h

/-- C10 witness: a client element accepted next to an existing server element;
re-sending it against the merged list changes nothing. -/
theorem C10_reconcile_idempotent_witness :
    _reconcile_elements [elemC10c, elemC10s] [elemC10c] = ([elemC10c, elemC10s], false) :=
  C10_reconcile_idempotent [elemC10s] [elemC10c] [elemC10c, elemC10s] true (by decide)

/-- C9 witness: a concrete sort — the element with the smaller fractional
index comes first, and the output is a permutation of the input. -/
theorem C9_fractional_order_witness :
    _order_by_fractional_index [elemC10s, elemC10c] = [elemC10c, elemC10s] ∧
    List.Perm (_order_by_fractional_index [elemC10s, elemC10c]) [elemC10s, elemC10c] :=
  ⟨by decide, (C9_fractional_order.1 [elemC10s, elemC10c]).1⟩
